import Mathlib

/-!
Verification of `src/clean.py`, the metadata-cleaning pipeline for the Enron
and Seattle email datasets.  Python dataframe cells that may hold either a
string or a NaN float are modelled as `Option String` (`none` = NaN /
non-string).  Pandas data frames are modelled as Lean lists of rows;
fallible steps (`np.concatenate` on an empty list raises) return `Except`.
-/

deriving instance DecidableEq for Except

namespace Sparta

/-- A dataframe cell: `some s` models a Python `str`, `none` models NaN /
any non-string value. -/
abbrev Cell := Option String

/-- Models Python `s.replace(c, "")` for a single character `c`: every
occurrence of `c` is removed, all other characters are kept in order. -/
def removeChar (c : Char) (l : List Char) : List Char :=
  l.filter (fun x => x ≠ c)

/-- Models Python `s.split(c)[0]` for a single character `c`: the prefix of
`s` before the first occurrence of `c` (all of `s` when `c` is absent). -/
def truncAt (c : Char) (l : List Char) : List Char :=
  l.takeWhile (fun x => x ≠ c)

/-- `clean_enron` from `src/clean.py`: on a string, removes `[`, `]`,
single quotes, double quotes and spaces (in that order of `replace`
calls); on a non-string returns `""`.  The special characters are written
via `Char.ofNat`: 91 `[`, 93 `]`, 39 single quote, 34 double quote,
32 space. -/
def clean_enron (s : Cell) : String :=
  match s with
  | some s =>
      String.mk (removeChar (Char.ofNat 32) (removeChar (Char.ofNat 34)
        (removeChar (Char.ofNat 39) (removeChar (Char.ofNat 93)
          (removeChar (Char.ofNat 91) s.data)))))
  | none => ""

/-- `clean_seattle` from `src/clean.py`: on a string, truncates at the
first `<` (60) and then at the first `(` (40), then removes double quotes
(34), single quotes (39) and spaces (32); on a non-string returns `""`. -/
def clean_seattle (s : Cell) : String :=
  match s with
  | some s =>
      String.mk (removeChar (Char.ofNat 32) (removeChar (Char.ofNat 39)
        (removeChar (Char.ofNat 34) (truncAt (Char.ofNat 40)
          (truncAt (Char.ofNat 60) s.data)))))
  | none => ""

/-- Models Python `s.split(c)` for a single-character separator `c`
(the pipeline only ever passes the one-character delimiters `","`, `";"`
and the space): splits at every occurrence of `c`; always returns at
least one (possibly empty) part. -/
def splitOnChar (c : Char) : List Char → List (List Char)
  | [] => [[]]
  | x :: xs =>
    if x = c then [] :: splitOnChar c xs
    else
      match splitOnChar c xs with
      | [] => [[x]]
      | h :: t => (x :: h) :: t

/-- String-level wrapper for `splitOnChar`. -/
def pySplit (c : Char) (s : String) : List String :=
  (splitOnChar c s.data).map String.mk

/-- `clean_multiple` from `src/clean.py`: splits a delimiter-joined
receiver field, cleans each part with `clean_fn`; with `single_senders`
set, a split of length other than one yields `[]`; a non-string receiver
yields `[]`. -/
def clean_multiple (s : Cell) (clean_fn : Cell → String) (delimiter : Char)
    (single_senders : Bool) : List String :=
  match s with
  | some s =>
      let parts := (pySplit delimiter s).map (fun r => clean_fn (some r))
      if single_senders ∧ parts.length ≠ 1 then [] else parts
  | none => []

/-- Is `c` an ASCII digit. -/
def isDigitChar (c : Char) : Bool :=
  48 ≤ c.toNat && c.toNat ≤ 57

/-- Reads a fixed-width decimal field: exactly `n` digits. -/
def parseNatFixed (n : Nat) (l : List Char) : Option Nat :=
  if l.length = n && l.all isDigitChar then
    some (l.foldl (fun a c => 10 * a + (c.toNat - 48)) 0)
  else none

/-- Gregorian leap-year test. -/
def isLeap (y : Nat) : Bool :=
  (y % 4 == 0 && y % 100 != 0) || y % 400 == 0

/-- Number of days in month `m` of year `y` (months 1–12). -/
def daysInMonth (y m : Nat) : Nat :=
  if m = 2 then (if isLeap y then 29 else 28)
  else if m = 4 || m = 6 || m = 9 || m = 11 then 30
  else 31

/-- Days in year `y` strictly before the first day of month `m`. -/
def daysBeforeMonth (y m : Nat) : Nat :=
  (List.range (m - 1)).foldl (fun a i => a + daysInMonth y (i + 1)) 0

/-- Day number of `y-m-d` counting from day 0 = 0001-01-01 (proleptic
Gregorian calendar, `1 ≤ y`). -/
def civilDays (y m d : Nat) : Nat :=
  365 * (y - 1) + (y - 1) / 4 - (y - 1) / 100 + (y - 1) / 400
    + daysBeforeMonth y m + (d - 1)

/-- Day number of the Unix epoch 1970-01-01 in the `civilDays` count. -/
def epochDays : Nat := civilDays 1970 1 1

/-- Parses a `YYYY-MM-DD` date (45 = `-`), validating month and day
ranges as `ciso8601.parse_datetime` does; returns the `civilDays`
number. -/
def parseDate (l : List Char) : Option Nat :=
  match splitOnChar (Char.ofNat 45) l with
  | [ys, ms, ds] =>
    match parseNatFixed 4 ys, parseNatFixed 2 ms, parseNatFixed 2 ds with
    | some y, some m, some d =>
      if 1 ≤ y && 1 ≤ m && m ≤ 12 && 1 ≤ d && d ≤ daysInMonth y m then
        some (civilDays y m d)
      else none
    | _, _, _ => none
  | _ => none

/-- Parses an `HH:MM:SS` time (58 = `:`); returns seconds from
midnight. -/
def parseTime (l : List Char) : Option Nat :=
  match splitOnChar (Char.ofNat 58) l with
  | [hs, ms, ss] =>
    match parseNatFixed 2 hs, parseNatFixed 2 ms, parseNatFixed 2 ss with
    | some h, some m, some s =>
      if h ≤ 23 && m ≤ 59 && s ≤ 59 then some (3600 * h + 60 * m + s)
      else none
    | _, _, _ => none
  | _ => none

/-- `convert_time` from `src/clean.py`: splits on the single space
(exactly two parts, else the tuple unpacking raises and the handler
returns `-1`), parses the `YYYY-MM-DD HH:MM:SS` value as a UTC instant
and returns whole epoch seconds; every failure — non-string cell,
wrong token count, malformed date or time — yields the sentinel `-1`.
(`ciso8601` also accepts some other ISO-8601 variants; the pipeline's
data and the claims only exercise this canonical form, which the model
accepts, and the model maps the other variants to the same sentinel used
for failures.) -/
def convert_time (s : Cell) : Int :=
  match s with
  | none => -1
  | some s =>
    match splitOnChar (Char.ofNat 32) s.data with
    | [d, t] =>
      match parseDate d, parseTime t with
      | some days, some secs =>
          ((days : Int) - (epochDays : Int)) * 86400 + (secs : Int)
      | _, _ => -1
    | _ => -1

/-- A raw input row after the column rename: `sender`, `receiver`, `cc`,
`bcc`, `submit`, each a string-or-NaN cell. -/
structure RawRow where
  sender : Cell
  receiver : Cell
  cc : Cell
  bcc : Cell
  submit : Cell
deriving DecidableEq

/-- A row after sender cleaning, receiver splitting and `expand`: the
receiver is one single cleaned string, the other columns are carried
along unchanged. -/
structure XRow where
  sender : String
  receiver : String
  submit : Cell
  cc : Cell
  bcc : Cell
deriving DecidableEq

/-- `expand` from `src/clean.py`: one output row per entry of the cleaned
receiver list, all sharing the row's sender, submit, cc and bcc. -/
def expand (sender : String) (recvs : List String) (submit cc bcc : Cell) :
    List XRow :=
  recvs.map (fun r => ⟨sender, r, submit, cc, bcc⟩)

/-- Python `s.lower()` (the identities here are ASCII). -/
def pyLower (s : String) : String :=
  String.mk (s.data.map Char.toLower)

/-- The sender/receiver validity test of `correct`:
`x != "" and x.lower() != "nan"`. -/
def name_ok (s : String) : Bool :=
  s ≠ "" && pyLower s ≠ "nan"

/-- The cc/bcc validity test of `correct`:
`type(x) is not str or x.lower() == "nan"`. -/
def ccbcc_ok (c : Cell) : Bool :=
  match c with
  | none => true
  | some s => pyLower s == "nan"

/-- The row predicate applied by `correct`. -/
def correctPred (single_senders : Bool) (r : XRow) : Bool :=
  name_ok r.sender && name_ok r.receiver &&
    (!single_senders || (ccbcc_ok r.cc && ccbcc_ok r.bcc))

/-- `correct` from `src/clean.py`: keeps the rows whose sender and
receiver are valid and, when `single_senders` is set, whose cc and bcc
are absent ("nan" or not a string). -/
def correct (rows : List XRow) (single_senders : Bool) : List XRow :=
  rows.filter (correctPred single_senders)

/-- A cleaned event before identity coding: cleaned sender and receiver
strings and an epoch-seconds submit time. -/
structure SEvent where
  sender : String
  receiver : String
  submit : Int
deriving DecidableEq

/-- The range test applied to the `submit` column:
`start <= x and x <= end`. -/
def inRange (tstart tend : Int) (e : SEvent) : Bool :=
  decide (tstart ≤ e.submit) && decide (e.submit ≤ tend)

/-- The expansion of one raw row: sender cleaned with `clean_fn`,
receiver split by `clean_multiple`, one `XRow` per receiver. -/
def expandRow (clean_fn : Cell → String) (delim : Char)
    (single_senders : Bool) (r : RawRow) : List XRow :=
  expand (clean_fn r.sender)
    (clean_multiple r.receiver clean_fn delim single_senders)
    r.submit r.cc r.bcc

/-- The events one raw row contributes to the cleaned table: its
expansion, filtered by `correct`, the submit cell parsed by
`convert_time`, filtered to `[tstart, tend]`. -/
def rowEvents (tstart tend : Int) (clean_fn : Cell → String) (delim : Char)
    (single_senders : Bool) (r : RawRow) : List SEvent :=
  (((expandRow clean_fn delim single_senders r).filter
      (correctPred single_senders)).map
    (fun x => SEvent.mk x.sender x.receiver (convert_time x.submit))).filter
    (inRange tstart tend)

/-- The string-level part of `clean` from `src/clean.py` (everything up
to the factorization): cleans the sender column, splits the receiver
column, expands (`np.concatenate` raises on a zero-row input, modelled
as `Except.error`), filters with `correct`, parses the submit column and
keeps the events whose submit lies in `[tstart, tend]`. -/
def cleanStrings (tstart tend : Int) (clean_fn : Cell → String)
    (delim : Char) (single_senders : Bool) (rows : List RawRow) :
    Except String (List SEvent) :=
  if rows.isEmpty then
    Except.error "need at least one array to concatenate"
  else
    let flat := (rows.map (expandRow clean_fn delim single_senders)).flatten
    let kept := correct flat single_senders
    let evs := kept.map
      (fun x => SEvent.mk x.sender x.receiver (convert_time x.submit))
    Except.ok (evs.filter (inRange tstart tend))

/-- The row-major stacking `df[["sender", "receiver"]].stack()`: for each
event, its sender then its receiver. -/
def stackPairs (evs : List SEvent) : List String :=
  evs.flatMap (fun e => [e.sender, e.receiver])

/-- First-occurrence deduplication: the distinct values in order of first
appearance, as `pd.factorize` enumerates them for its lookup table. -/
def firstDedup : List String → List String
  | [] => []
  | x :: xs => x :: (firstDedup xs).filter (fun y => y ≠ x)

/-- The integer code `pd.factorize` assigns to `s`: its index in the
first-appearance enumeration of the distinct values. -/
def codeOf (key : List String) (s : String) : Nat :=
  key.indexOf s

/-- A coded event row of the `clean[_s].csv` artifact. -/
structure CEvent where
  sender : Nat
  receiver : Nat
  submit : Int
deriving DecidableEq

instance : Inhabited CEvent := ⟨⟨0, 0, 0⟩⟩

/-- The order used to model `df.sort_values(by=["submit"])`.  (Pandas
uses an unstable quicksort there; the model uses a stable sort, which
picks one of the permitted tie orders — no claim depends on the tie
order of `clean`'s output.) -/
def submitLe (a b : CEvent) : Prop :=
  a.submit ≤ b.submit

instance : DecidableRel submitLe := fun a b => by
  unfold submitLe; infer_instance

/-- `clean` from `src/clean.py`: the string-level pipeline, then one
factorization over the stacked sender and receiver columns (a single
shared code space with a single lookup table `user_key`), then the sort
by submit time.  Returns the coded event table and the code → string
lookup table. -/
def clean (tstart tend : Int) (clean_fn : Cell → String) (delim : Char)
    (single_senders : Bool) (rows : List RawRow) :
    Except String (List CEvent × List String) :=
  match cleanStrings tstart tend clean_fn delim single_senders rows with
  | Except.error e => Except.error e
  | Except.ok evs =>
    let key := firstDedup (stackPairs evs)
    let coded := evs.map
      (fun e => CEvent.mk (codeOf key e.sender) (codeOf key e.receiver)
        e.submit)
    Except.ok (coded.insertionSort submitLe, key)

/-- One row of a per-user index (`senders` / `receivers` output): the
user's code, the counterpart codes and the submit times of that user's
events. -/
structure UserRow where
  user : Nat
  counterparts : List Nat
  submits : List Int
deriving DecidableEq

/-- The composite order realised by `np.lexsort((df[:, 2], df[:, k]))`:
primary key `key`, secondary key the submit time.  `np.lexsort` performs
an indirect stable sort, modelled below with the stable
`insertionSort`. -/
def keyLe (key : CEvent → Nat) (a b : CEvent) : Prop :=
  key a < key b ∨ (key a = key b ∧ a.submit ≤ b.submit)

instance (key : CEvent → Nat) : DecidableRel (keyLe key) := fun a b => by
  unfold keyLe; infer_instance

/-- Groups a list into maximal runs of consecutive equal-`key` elements,
each run as a (head, rest) pair.  On a key-sorted list this is exactly
the `start` / `end` two-pointer loop of `senders` / `receivers`, which
walks one contiguous block per element of `np.unique(keys)`. -/
def groupRuns (key : CEvent → Nat) : List CEvent → List (CEvent × List CEvent)
  | [] => []
  | x :: xs =>
    match groupRuns key xs with
    | [] => [(x, [])]
    | (y, ys) :: rest =>
      if key x = key y then (x, y :: ys) :: rest
      else (x, []) :: (y, ys) :: rest

/-- The common shape of `senders` and `receivers` from `src/clean.py`:
stable-sort by (`key`, submit), then emit one row per run of equal
`key`, holding that run's `val` column and submit column. -/
def groupIndex (key val : CEvent → Nat) (df : List CEvent) : List UserRow :=
  let sorted := df.insertionSort (keyLe key)
  (groupRuns key sorted).map (fun b =>
    ⟨key b.1, (b.1 :: b.2).map val, (b.1 :: b.2).map (fun e => e.submit)⟩)

/-- `senders` from `src/clean.py`: for each sender, the receivers and
submit times of their messages, ordered by submit time. -/
def senders (df : List CEvent) : List UserRow :=
  groupIndex (fun e => e.sender) (fun e => e.receiver) df

/-- `receivers` from `src/clean.py`: for each receiver, the senders and
submit times of the messages they received, ordered by submit time. -/
def receivers (df : List CEvent) : List UserRow :=
  groupIndex (fun e => e.receiver) (fun e => e.sender) df

/-- `np.percentile(xs, q)` with the default linear interpolation between
order statistics: with `s` the sorted data and `h = q * (n - 1) / 100`,
the value `s[floor h] + (h - floor h) * (s[floor h + 1] - s[floor h])`
(the upper index clamped to `n - 1`).  `np.percentile` raises on empty
data; the model returns the junk value `0` there and every theorem below
assumes a nonempty input. -/
def percentile (xs : List Nat) (q : ℚ) : ℚ :=
  let s := xs.insertionSort (· ≤ ·)
  let n := s.length
  if n = 0 then 0
  else
    let h : ℚ := q * ((n : ℚ) - 1) / 100
    let i : Nat := (Int.floor h).toNat
    let a : ℚ := (s.getD i 0 : Nat)
    let b : ℚ := (s.getD (min (i + 1) (n - 1)) 0 : Nat)
    a + (h - (i : ℚ)) * (b - a)

/-- `active_users` from `src/clean.py`: per-user message counts are the
lengths of the `submits` column; keeps the users whose count lies in the
inclusive band between the `min_percentile`-th and `max_percentile`-th
percentiles of the count distribution. -/
def active_users (df : List UserRow) (min_percentile max_percentile : ℚ) :
    List UserRow :=
  let lens := df.map (fun r => r.submits.length)
  let lo := percentile lens min_percentile
  let hi := percentile lens max_percentile
  df.filter (fun r =>
    decide (lo ≤ (r.submits.length : ℚ)) &&
      decide ((r.submits.length : ℚ) ≤ hi))

/-- `os.path.join(a, b)` for the relative path components used in
`process`. -/
def path_join (a b : String) : String :=
  a ++ "/" ++ b

/-- The `senders_processed_path` computed in `process`:
`senders_processed{'_s' if single_senders else ''}.csv` under the
dataset directory. -/
def senders_processed_path (data_path : String) (single_senders : Bool) :
    String :=
  path_join data_path
    ("senders_processed" ++ (if single_senders then "_s" else "") ++ ".csv")

/-- The `receivers_processed_path` computed in `process`. -/
def receivers_processed_path (data_path : String) (single_senders : Bool) :
    String :=
  path_join data_path
    ("receivers_processed" ++ (if single_senders then "_s" else "") ++ ".csv")

/-- Does `suff` occur as a suffix of `s` (Python `s.endswith(suff)`). -/
def strEndsWith (s suff : String) : Bool :=
  suff.data.isSuffixOf s.data

/-- The Enron valid-range configuration from `main`. -/
def enron_start : Int := 490320000

/-- The Enron valid-range configuration from `main`. -/
def enron_end : Int := 1007337600

/-- The Seattle valid-range configuration from `main`. -/
def seattle_start : Int := 1483228800

/-- The Seattle valid-range configuration from `main`. -/
def seattle_end : Int := 1491004800

end Sparta

section SanityChecks

open Sparta

example : clean_enron (some "\"[Jane.Doe]\"") = "Jane.Doe" := by decide

example : clean_seattle (some "jane@x.com <Jane Doe>") = "jane@x.com" := by decide

example : convert_time (some "2017-01-02 10:00:00") = 1483351200 := by decide

example : convert_time (some "1970-01-01 00:00:01") = 1 := by decide

example : convert_time (some "not a date") = -1 := by decide

example : convert_time none = -1 := by decide

example : clean_multiple (some "B;C") clean_seattle (Char.ofNat 59) false = ["B", "C"] := by
  decide

example : clean_multiple (some "B;C") clean_seattle (Char.ofNat 59) true = [] := by
  decide

example :
    clean 1483228800 1491004800 clean_seattle (Char.ofNat 59) false
      [⟨some "A", some "B;C", none, none, some "2017-01-02 10:00:00"⟩] =
    Except.ok ([⟨0, 1, 1483351200⟩, ⟨0, 2, 1483351200⟩], ["A", "B", "C"]) := by
  decide

example :
    clean 1483228800 1491004800 clean_seattle (Char.ofNat 59) true
      [⟨some "A", some "B;C", none, none, some "2017-01-02 10:00:00"⟩] =
    Except.ok ([], []) := by
  decide

example : clean 0 10 clean_enron (Char.ofNat 44) false [] =
    Except.error "need at least one array to concatenate" := by
  decide

example :
    senders [⟨1, 2, 50⟩, ⟨0, 3, 20⟩, ⟨1, 4, 10⟩, ⟨1, 5, 50⟩] =
      [⟨0, [3], [20]⟩, ⟨1, [4, 2, 5], [10, 50, 50]⟩] := by
  decide

example :
    receivers [⟨1, 2, 50⟩, ⟨0, 3, 20⟩, ⟨1, 4, 10⟩, ⟨1, 5, 50⟩] =
      [⟨2, [1], [50]⟩, ⟨3, [0], [20]⟩, ⟨4, [1], [10]⟩, ⟨5, [1], [50]⟩] := by
  decide

end SanityChecks

namespace Sparta

/-- Evaluation rule for `percentile`, used to compute concrete
percentiles: supply the sorted list, its length, the lower index and the
two bracketing order statistics. -/
theorem percentile_eval (xs s : List Nat) (q : ℚ) (n i a b : Nat)
    (hs : xs.insertionSort (fun x y => x ≤ y) = s)
    (hn : s.length = n) (hne : ¬ n = 0)
    (hi : (Int.floor (q * ((n : ℚ) - 1) / 100)).toNat = i)
    (ha : s.getD i 0 = a) (hb : s.getD (min (i + 1) (n - 1)) 0 = b) :
    percentile xs q =
      (a : ℚ) + (q * ((n : ℚ) - 1) / 100 - (i : ℚ)) * ((b : ℚ) - (a : ℚ)) := by
  simp only [percentile]
  rw [hs, hn, if_neg hne, hi, ha, hb]

theorem percentile_80_example : percentile [1, 2, 3, 4, 5, 100] 80 = 5 := by
  rw [percentile_eval [1, 2, 3, 4, 5, 100] [1, 2, 3, 4, 5, 100] 80 6 4 5 100
    (by decide) (by decide) (by decide) (by norm_num; rfl)
    (by decide) (by decide)]
  norm_num

theorem percentile_0_example : percentile [1, 2, 3, 4, 5, 100] 0 = 1 := by
  rw [percentile_eval [1, 2, 3, 4, 5, 100] [1, 2, 3, 4, 5, 100] 0 6 0 1 2
    (by decide) (by decide) (by decide) (by norm_num) (by decide) (by decide)]
  norm_num

/-- C6 counterexample.  The claim asserts the Enron rule maps
`"[Jane.Doe]"` (with surrounding double quotes) to `JaneDoe`; the code
only strips brackets, quotes and spaces and keeps the dot, producing
`Jane.Doe`. -/
theorem C6_enron_dot_counterexample :
    clean_enron (some "\"[Jane.Doe]\"") = "Jane.Doe" ∧
      clean_enron (some "\"[Jane.Doe]\"") ≠ "JaneDoe" := by
  decide

/-- C6 (amended): the per-dataset cleaner removes exactly the dataset's
formatting characters and nothing else — the Enron rule removes square
brackets, single quotes, double quotes and spaces only (so
`"[Jane.Doe]"` with surrounding double quotes maps to `Jane.Doe`, the
dot preserved); the Seattle rule truncates at the first `<` or `(` and
removes double quotes, single quotes and spaces
(so `jane@x.com <Jane Doe>` maps to `jane@x.com`). -/
theorem C6_identity_cleaners :
    clean_enron (some "\"[Jane.Doe]\"") = "Jane.Doe" ∧
    clean_seattle (some "jane@x.com <Jane Doe>") = "jane@x.com" ∧
    (∀ s : String, (clean_enron (some s)).data =
      s.data.filter (fun c =>
        c ∉ [Char.ofNat 91, Char.ofNat 93, Char.ofNat 39, Char.ofNat 34,
          Char.ofNat 32])) ∧
    (∀ s : String, (clean_seattle (some s)).data =
      ((s.data.takeWhile (fun c => c ≠ Char.ofNat 60)).takeWhile
          (fun c => c ≠ Char.ofNat 40)).filter (fun c =>
        c ∉ [Char.ofNat 34, Char.ofNat 39, Char.ofNat 32])) := by
  refine ⟨by decide, by decide, fun s => ?_, fun s => ?_⟩
  · show (removeChar (Char.ofNat 32) (removeChar (Char.ofNat 34)
      (removeChar (Char.ofNat 39) (removeChar (Char.ofNat 93)
        (removeChar (Char.ofNat 91) s.data))))) = _
    simp only [removeChar, List.filter_filter]
    refine List.filter_congr fun c _ => ?_
    by_cases h1 : c = Char.ofNat 91 <;> by_cases h2 : c = Char.ofNat 93 <;>
      by_cases h3 : c = Char.ofNat 39 <;> by_cases h4 : c = Char.ofNat 34 <;>
      by_cases h5 : c = Char.ofNat 32 <;> simp [h1, h2, h3, h4, h5]
  · show (removeChar (Char.ofNat 32) (removeChar (Char.ofNat 39)
      (removeChar (Char.ofNat 34) (truncAt (Char.ofNat 40)
        (truncAt (Char.ofNat 60) s.data))))) = _
    simp only [removeChar, truncAt, List.filter_filter]
    refine List.filter_congr fun c _ => ?_
    by_cases h1 : c = Char.ofNat 34 <;> by_cases h2 : c = Char.ofNat 39 <;>
      by_cases h3 : c = Char.ofNat 32 <;> simp [h1, h2, h3]

/-- C8 counterexample.  The claim asserts the per-user index artifact
paths carry a `.json` extension; `process` computes
`senders_processed{'_s'}.csv` / `receivers_processed{'_s'}.csv` — the
content is written with `to_json`, but the path ends in `.csv`. -/
theorem C8_processed_path_counterexample :
    senders_processed_path "data/enron" false =
        "data/enron/senders_processed.csv" ∧
      strEndsWith (senders_processed_path "data/enron" false) ".json" =
        false ∧
      strEndsWith (receivers_processed_path "data/enron" false) ".json" =
        false := by
  decide

/-- C8 (amended): for every data directory and `single_senders` flag the
per-user index artifacts of `process` are written to
`senders_processed[_s].csv` / `receivers_processed[_s].csv` under the
dataset subdirectory — a `.csv` extension (the content is JSON, written
via `to_json`, but the computed path carries `.csv`, not `.json`). -/
theorem C8_processed_paths :
    ∀ dp : String,
      senders_processed_path dp false = dp ++ "/senders_processed.csv" ∧
      senders_processed_path dp true = dp ++ "/senders_processed_s.csv" ∧
      receivers_processed_path dp false = dp ++ "/receivers_processed.csv" ∧
      receivers_processed_path dp true = dp ++ "/receivers_processed_s.csv" := by
  intro dp
  refine ⟨?_, ?_, ?_, ?_⟩ <;>
    simp [senders_processed_path, receivers_processed_path, path_join,
      String.append_assoc]

/-- C5: in single-recipient mode, a row whose cc or bcc cell is a string
other than a case-insensitive "nan" never survives `correct`, whatever
its sender and receiver look like. -/
theorem C5_ccbcc_filtered (l : List XRow) (r : XRow)
    (h : (∃ s, r.cc = some s ∧ pyLower s ≠ "nan") ∨
      (∃ s, r.bcc = some s ∧ pyLower s ≠ "nan")) :
    r ∉ correct l true := by
  intro hmem
  have hp : correctPred true r = true := (List.mem_filter.mp hmem).2
  simp only [correctPred, Bool.not_true, Bool.false_or, Bool.and_eq_true] at hp
  rcases h with ⟨s, hcc, hs⟩ | ⟨s, hbcc, hs⟩
  · have := hp.2.1
    rw [hcc] at this
    simp only [ccbcc_ok, beq_iff_eq] at this
    exact hs this
  · have := hp.2.2
    rw [hbcc] at this
    simp only [ccbcc_ok, beq_iff_eq] at this
    exact hs this

/-- Witness for C5: a row with one valid sender, exactly one valid
receiver, empty bcc but `cc = "jane@x.com"` is dropped by `correct` in
single-recipient mode. -/
theorem C5_ccbcc_filtered_witness :
    (⟨"alice", "bob", some "2000-01-01 00:00:00", some "jane@x.com", none⟩ :
        XRow) ∉
      correct
        [⟨"alice", "bob", some "2000-01-01 00:00:00", some "jane@x.com",
          none⟩] true :=
  C5_ccbcc_filtered _ _ (Or.inl ⟨"jane@x.com", rfl, by decide⟩)

/-- C2: a raw row with sender `A`, receiver `B;C` (delimiter `;`) and the
valid timestamp `2017-01-02 10:00:00` (epoch 1483351200, inside the
Seattle range): in multi-recipient mode `clean` yields exactly the two
events `(A, B, t)` and `(A, C, t)` (codes 0, 1, 2 for `A`, `B`, `C`),
sharing sender and timestamp; in single-recipient mode `clean_multiple`
yields `[]` for the receiver field and the row contributes zero
events. -/
theorem C2_multi_receiver_expansion :
    convert_time (some "2017-01-02 10:00:00") = 1483351200 ∧
    seattle_start ≤ 1483351200 ∧ (1483351200 : Int) ≤ seattle_end ∧
    clean seattle_start seattle_end clean_seattle (Char.ofNat 59) false
        [⟨some "A", some "B;C", none, none, some "2017-01-02 10:00:00"⟩] =
      Except.ok ([⟨0, 1, 1483351200⟩, ⟨0, 2, 1483351200⟩], ["A", "B", "C"]) ∧
    clean_multiple (some "B;C") clean_seattle (Char.ofNat 59) true = [] ∧
    clean seattle_start seattle_end clean_seattle (Char.ofNat 59) true
        [⟨some "A", some "B;C", none, none, some "2017-01-02 10:00:00"⟩] =
      Except.ok ([], []) := by
  decide

/-- C10: `clean` on an input with zero rows hits
`np.concatenate([])`, which raises (modelled as `Except.error`), while a
nonempty input whose rows all clean to empty receiver lists flows
through and returns an empty event table and an empty lookup table. -/
theorem C10_empty_input (tstart tend : Int) (f : Cell → String) (d : Char)
    (ss : Bool) (rows : List RawRow) (hne : rows ≠ [])
    (hrecv : ∀ r ∈ rows, clean_multiple r.receiver f d ss = []) :
    clean tstart tend f d ss [] =
        Except.error "need at least one array to concatenate" ∧
      clean tstart tend f d ss rows = Except.ok ([], []) := by
  constructor
  · rfl
  · have hflat :
        (rows.map (expandRow f d ss)).flatten = ([] : List XRow) := by
      rw [List.flatten_eq_nil_iff]
      intro l hl
      rcases List.mem_map.mp hl with ⟨r, hr, rfl⟩
      simp [expandRow, expand, hrecv r hr]
    have hcs : cleanStrings tstart tend f d ss rows =
        Except.ok ([] : List SEvent) := by
      unfold cleanStrings
      rw [if_neg (by simpa [List.isEmpty_iff] using hne)]
      rw [hflat]
      rfl
    unfold clean
    rw [hcs]
    rfl

/-- Witness for C10: a one-row input whose receiver cell is NaN cleans to
the empty table, and the zero-row input errors. -/
theorem C10_empty_input_witness :
    clean 0 10 clean_enron (Char.ofNat 44) false [] =
        Except.error "need at least one array to concatenate" ∧
      clean 0 10 clean_enron (Char.ofNat 44) false
          [⟨some "A", none, none, none, some "1970-01-01 00:00:05"⟩] =
        Except.ok ([], []) :=
  C10_empty_input 0 10 clean_enron (Char.ofNat 44) false
    [⟨some "A", none, none, none, some "1970-01-01 00:00:05"⟩]
    (by decide) (by intro r hr; fin_cases hr; decide)

/-- On a nonempty input, the string-level pipeline is the concatenation
of the per-row contributions `rowEvents`: the `correct` filter, the
`convert_time` map and the range filter all distribute over the
row-by-row expansion. -/
theorem cleanStrings_flatMap (tstart tend : Int) (f : Cell → String)
    (d : Char) (ss : Bool) (rows : List RawRow) (hne : rows ≠ []) :
    cleanStrings tstart tend f d ss rows =
      Except.ok (rows.flatMap (rowEvents tstart tend f d ss)) := by
  unfold cleanStrings correct
  rw [if_neg (by simpa using hne)]
  simp only [List.flatMap_def, List.filter_flatten, List.map_flatten,
    List.map_map]
  congr 2

/-- Every `XRow` produced by expanding a raw row carries that row's raw
submit cell. -/
theorem expandRow_submit (f : Cell → String) (d : Char) (ss : Bool)
    (r : RawRow) (x : XRow) (hx : x ∈ expandRow f d ss r) :
    x.submit = r.submit := by
  rcases List.mem_map.mp hx with ⟨s, _, rfl⟩
  rfl

/-- A row whose submit cell parses outside `[tstart, tend]` (including
the `-1` parse-failure sentinel when that lies outside the range)
contributes no events. -/
theorem rowEvents_eq_nil_of_bad_time (tstart tend : Int) (f : Cell → String)
    (d : Char) (ss : Bool) (r : RawRow)
    (hbad : ¬ (tstart ≤ convert_time r.submit ∧
      convert_time r.submit ≤ tend)) :
    rowEvents tstart tend f d ss r = [] := by
  unfold rowEvents
  rw [List.filter_eq_nil_iff]
  intro e he
  rcases List.mem_map.mp he with ⟨x, hx, rfl⟩
  have hs : x.submit = r.submit :=
    expandRow_submit f d ss r x (List.mem_filter.mp hx).1
  simp only [inRange, hs, Bool.and_eq_true, decide_eq_true_eq]
  intro hcon
  exact hbad hcon

/-- C1: on every dataset configuration (both configured ranges have
`start > -1`, stated here as `-1` lying outside `[tstart, tend]`), every
event in `clean`'s output has its submit inside `[tstart, tend]`; every
output event's submit is the parse of some input row's timestamp and is
never the `-1` sentinel; and a row whose timestamp fails to parse
(`convert_time` returns `-1` instead of raising) or parses outside the
range contributes no events at all. -/
theorem C1_submit_range_filter (tstart tend : Int) (f : Cell → String)
    (d : Char) (ss : Bool) (rows : List RawRow) (coded : List CEvent)
    (key : List String) (hsent : ¬ (tstart ≤ -1 ∧ (-1 : Int) ≤ tend))
    (hclean : clean tstart tend f d ss rows = Except.ok (coded, key)) :
    (∀ e ∈ coded, tstart ≤ e.submit ∧ e.submit ≤ tend) ∧
    (∀ e ∈ coded, ∃ r ∈ rows,
      e.submit = convert_time r.submit ∧ convert_time r.submit ≠ -1) ∧
    (∀ r ∈ rows,
      (convert_time r.submit = -1 ∨
        ¬ (tstart ≤ convert_time r.submit ∧ convert_time r.submit ≤ tend)) →
      rowEvents tstart tend f d ss r = []) := by
  have hne : rows ≠ [] := by
    intro h
    rw [h] at hclean
    exact Except.noConfusion hclean
  have hcs := cleanStrings_flatMap tstart tend f d ss rows hne
  unfold clean at hclean
  rw [hcs] at hclean
  have hcoded :
      coded = ((rows.flatMap (rowEvents tstart tend f d ss)).map
        (fun e => CEvent.mk (codeOf (firstDedup (stackPairs
          (rows.flatMap (rowEvents tstart tend f d ss)))) e.sender)
          (codeOf (firstDedup (stackPairs
            (rows.flatMap (rowEvents tstart tend f d ss)))) e.receiver)
          e.submit)).insertionSort submitLe := by
    have := congrArg (fun x : Except String (List CEvent × List String) =>
      match x with
      | Except.ok p => p.1
      | Except.error _ => []) hclean
    simpa using this.symm
  have hmem : ∀ e ∈ coded, ∃ ev ∈ rows.flatMap (rowEvents tstart tend f d ss),
      e.submit = ev.submit := by
    intro e he
    rw [hcoded] at he
    have := (List.perm_insertionSort submitLe _).mem_iff.mp he
    rcases List.mem_map.mp this with ⟨ev, hev, rfl⟩
    exact ⟨ev, hev, rfl⟩
  have hrange : ∀ ev ∈ rows.flatMap (rowEvents tstart tend f d ss),
      tstart ≤ ev.submit ∧ ev.submit ≤ tend := by
    intro ev hev
    rcases List.mem_flatMap.mp hev with ⟨r, _, hinr⟩
    have : inRange tstart tend ev = true :=
      (List.mem_filter.mp hinr).2
    simpa [inRange, Bool.and_eq_true, decide_eq_true_eq] using this
  refine ⟨?_, ?_, ?_⟩
  · intro e he
    rcases hmem e he with ⟨ev, hev, hsub⟩
    rw [hsub]
    exact hrange ev hev
  · intro e he
    rcases hmem e he with ⟨ev, hev, hsub⟩
    rcases List.mem_flatMap.mp hev with ⟨r, hr, hinr⟩
    refine ⟨r, hr, ?_, ?_⟩
    · rcases List.mem_map.mp
        (List.mem_of_mem_filter hinr) with ⟨x, hx, rfl⟩
      have hxs : x.submit = r.submit :=
        expandRow_submit f d ss r x (List.mem_filter.mp hx).1
      rw [hsub, hxs]
    · intro hm1
      have hx := hrange ev hev
      rcases List.mem_map.mp
        (List.mem_of_mem_filter hinr) with ⟨x, hxf, rfl⟩
      have hxs : x.submit = r.submit :=
        expandRow_submit f d ss r x (List.mem_filter.mp hxf).1
      rw [hxs, hm1] at hx
      exact hsent hx
  · intro r _ hbad
    rcases hbad with hm1 | hout
    · exact rowEvents_eq_nil_of_bad_time tstart tend f d ss r
        (by rw [hm1]; exact hsent)
    · exact rowEvents_eq_nil_of_bad_time tstart tend f d ss r hout

/-- Witness for C1: the Enron configuration with one parse-able in-range
row, one unparsable row and one out-of-range row; the surviving event is
in range, the unparsable and out-of-range rows contribute nothing. -/
theorem C1_submit_range_filter_witness :
    (enron_start ≤ (915148800 : Int) ∧ (915148800 : Int) ≤ enron_end) ∧
    rowEvents enron_start enron_end clean_enron (Char.ofNat 44) false
        ⟨some "C", some "D", none, none, some "not a date"⟩ = [] ∧
    rowEvents enron_start enron_end clean_enron (Char.ofNat 44) false
        ⟨some "E", some "F", none, none, some "2020-01-01 00:00:00"⟩ = [] :=
  ⟨(C1_submit_range_filter enron_start enron_end clean_enron (Char.ofNat 44)
      false
      [⟨some "A", some "B", none, none, some "1999-01-01 00:00:00"⟩,
       ⟨some "C", some "D", none, none, some "not a date"⟩,
       ⟨some "E", some "F", none, none, some "2020-01-01 00:00:00"⟩]
      [⟨0, 1, 915148800⟩] ["A", "B"] (by decide) (by decide)).1
      ⟨0, 1, 915148800⟩ (by decide),
   (C1_submit_range_filter enron_start enron_end clean_enron (Char.ofNat 44)
      false
      [⟨some "A", some "B", none, none, some "1999-01-01 00:00:00"⟩,
       ⟨some "C", some "D", none, none, some "not a date"⟩,
       ⟨some "E", some "F", none, none, some "2020-01-01 00:00:00"⟩]
      [⟨0, 1, 915148800⟩] ["A", "B"] (by decide) (by decide)).2.2
      ⟨some "C", some "D", none, none, some "not a date"⟩ (by decide)
      (Or.inl (by decide)),
   (C1_submit_range_filter enron_start enron_end clean_enron (Char.ofNat 44)
      false
      [⟨some "A", some "B", none, none, some "1999-01-01 00:00:00"⟩,
       ⟨some "C", some "D", none, none, some "not a date"⟩,
       ⟨some "E", some "F", none, none, some "2020-01-01 00:00:00"⟩]
      [⟨0, 1, 915148800⟩] ["A", "B"] (by decide) (by decide)).2.2
      ⟨some "E", some "F", none, none, some "2020-01-01 00:00:00"⟩
      (by decide) (Or.inr (by decide))⟩

instance keyLe_total_inst (k : CEvent → Nat) : IsTotal CEvent (keyLe k) :=
  ⟨fun a b => by unfold keyLe; omega⟩

instance keyLe_trans_inst (k : CEvent → Nat) : IsTrans CEvent (keyLe k) :=
  ⟨fun a b c hab hbc => by
    unfold keyLe at hab hbc ⊢
    omega⟩

/-- `groupRuns` never returns an empty run list for a nonempty input. -/
theorem groupRuns_cons_ne_nil (k : CEvent → Nat) (x : CEvent)
    (xs : List CEvent) : groupRuns k (x :: xs) ≠ [] := by
  simp only [groupRuns]
  cases h : groupRuns k xs with
  | nil => simp
  | cons b rest =>
    cases b with
    | mk y ys =>
      dsimp only
      split <;> simp

/-- The first run of `groupRuns` starts with the head of the list. -/
theorem groupRuns_head (k : CEvent → Nat) (x : CEvent) (xs : List CEvent) :
    ∃ ys rest, groupRuns k (x :: xs) = (x, ys) :: rest := by
  simp only [groupRuns]
  cases h : groupRuns k xs with
  | nil => exact ⟨[], [], rfl⟩
  | cons b rest2 =>
    cases b with
    | mk z zs =>
      by_cases hk : k x = k z
      · exact ⟨z :: zs, rest2, by simp [hk]⟩
      · exact ⟨[], (z, zs) :: rest2, by simp [hk]⟩

/-- The runs of `groupRuns` concatenate back to the input list. -/
theorem groupRuns_flatten (k : CEvent → Nat) :
    ∀ l : List CEvent,
      ((groupRuns k l).map (fun b => b.1 :: b.2)).flatten = l := by
  intro l
  induction l with
  | nil => rfl
  | cons x xs ih =>
    simp only [groupRuns]
    cases hgr : groupRuns k xs with
    | nil =>
      have hxs : xs = [] := by
        cases xs with
        | nil => rfl
        | cons a as => exact absurd hgr (groupRuns_cons_ne_nil k a as)
      subst hxs
      rfl
    | cons b rest =>
      cases b with
      | mk y ys =>
        rw [hgr] at ih
        dsimp only
        split
        · simpa using ih
        · simpa using ih

/-- On a key-sorted list, each run of `groupRuns` is exactly the filter
of the list to that run's key, and the runs' keys are strictly
ascending. -/
theorem groupRuns_sorted_spec (k : CEvent → Nat) :
    ∀ l : List CEvent, List.Sorted (keyLe k) l →
      (∀ b ∈ groupRuns k l,
        b.1 :: b.2 = l.filter (fun e => k e = k b.1)) ∧
      (groupRuns k l).Pairwise (fun b c => k b.1 < k c.1) := by
  intro l
  induction l with
  | nil =>
    intro _
    exact ⟨fun b hb => by simp [groupRuns] at hb, by simp [groupRuns]⟩
  | cons x xs ih =>
    intro hsort
    obtain ⟨hxall, hsxs⟩ := List.sorted_cons.mp hsort
    obtain ⟨ihA, ihB⟩ := ih hsxs
    simp only [groupRuns]
    cases hgr : groupRuns k xs with
    | nil =>
      have hxs : xs = [] := by
        cases xs with
        | nil => rfl
        | cons a as => exact absurd hgr (groupRuns_cons_ne_nil k a as)
      subst hxs
      refine ⟨?_, by simp⟩
      intro b hb
      simp only [List.mem_singleton] at hb
      subst hb
      simp [List.filter]
    | cons b0 rest =>
      obtain ⟨y, ys⟩ := b0
      rw [hgr] at ihA ihB
      have hhead : ∃ t, xs = y :: t := by
        cases xs with
        | nil => simp [groupRuns] at hgr
        | cons a as =>
          obtain ⟨ys2, rest2, heq⟩ := groupRuns_head k a as
          rw [heq] at hgr
          have hay : a = y := by
            have := (List.cons.injEq _ _ _ _).mp hgr
            exact congrArg Prod.fst this.1
          exact ⟨as, by rw [hay]⟩
      have hyxs : y ∈ xs := by
        have h1 := ihA (y, ys) (List.mem_cons_self _ _)
        have : y ∈ xs.filter (fun e => k e = k (y, ys).1) := by
          rw [← h1]; exact List.mem_cons_self _ _
        exact List.mem_of_mem_filter this
      have hxy : k x ≤ k y := by
        have := hxall y hyxs
        unfold keyLe at this
        omega
      dsimp only
      by_cases hk : k x = k y
      · rw [if_pos hk]
        constructor
        · intro b hb
          rcases List.mem_cons.mp hb with rfl | hbtail
          · show x :: y :: ys = (x :: xs).filter (fun e => k e = k x)
            rw [List.filter_cons, if_pos (by simp)]
            have h1 := ihA (y, ys) (List.mem_cons_self _ _)
            dsimp at h1
            rw [show (fun e => decide (k e = k x)) =
              (fun e => decide (k e = k y)) from funext fun e => by
                rw [hk], ← h1]
          · have h1 := ihA b (List.mem_cons_of_mem _ hbtail)
            have hlt : k y < k b.1 :=
              (List.pairwise_cons.mp ihB).1 b hbtail
            rw [List.filter_cons, if_neg (by simp; omega)]
            exact h1
        · refine List.pairwise_cons.mpr
            ⟨?_, (List.pairwise_cons.mp ihB).2⟩
          intro c hc
          have := (List.pairwise_cons.mp ihB).1 c hc
          dsimp only at this ⊢
          omega
      · rw [if_neg hk]
        have hxlt : k x < k y := lt_of_le_of_ne hxy hk
        have hfilx : xs.filter (fun e => k e = k x) = [] := by
          rw [List.filter_eq_nil_iff]
          intro e he
          simp only [decide_eq_true_eq]
          intro hke
          obtain ⟨t, ht⟩ := hhead
          subst ht
          rcases List.mem_cons.mp he with rfl | het
          · omega
          · have := List.rel_of_sorted_cons hsxs e het
            unfold keyLe at this
            omega
        constructor
        · intro b hb
          rcases List.mem_cons.mp hb with rfl | hb2
          · show x :: [] = (x :: xs).filter (fun e => k e = k x)
            rw [List.filter_cons, if_pos (by simp), hfilx]
          rcases List.mem_cons.mp hb2 with rfl | hb3
          · have h1 := ihA (y, ys) (List.mem_cons_self _ _)
            show y :: ys = (x :: xs).filter (fun e => k e = k y)
            rw [List.filter_cons, if_neg (by simpa using hk)]
            exact h1
          · have h1 := ihA b (List.mem_cons_of_mem _ hb3)
            have hlt : k y < k b.1 :=
              (List.pairwise_cons.mp ihB).1 b hb3
            rw [List.filter_cons, if_neg (by simp; omega)]
            exact h1
        · refine List.pairwise_cons.mpr ⟨?_, ihB⟩
          intro c hc
          rcases List.mem_cons.mp hc with rfl | hc2
          · exact hxlt
          · have := (List.pairwise_cons.mp ihB).1 c hc2
            dsimp only at this ⊢
            omega

/-- Every key occurring in a sorted list owns a run. -/
theorem groupRuns_exists_block (k : CEvent → Nat) (l : List CEvent)
    (hsort : List.Sorted (keyLe k) l) (u : Nat) (hu : u ∈ l.map k) :
    ∃ b ∈ groupRuns k l, k b.1 = u := by
  rcases List.mem_map.mp hu with ⟨e, he, rfl⟩
  rw [← groupRuns_flatten k l] at he
  rcases List.mem_flatten.mp he with ⟨blk, hblk, heblk⟩
  rcases List.mem_map.mp hblk with ⟨b, hb, rfl⟩
  refine ⟨b, hb, ?_⟩
  have hchar := (groupRuns_sorted_spec k l hsort).1 b hb
  rw [hchar] at heblk
  have h1 := List.of_mem_filter heblk
  have h2 : k e = k b.1 := by simpa using h1
  exact h2.symm

/-- Stability of the modelled `np.lexsort`: a filter whose surviving
elements are pairwise `keyLe`-related commutes with the stable sort. -/
theorem insertionSort_filter_of_const (key : CEvent → Nat)
    (df : List CEvent) (q : CEvent → Bool)
    (hq : ∀ a b, q a = true → q b = true → keyLe key a b) :
    (df.insertionSort (keyLe key)).filter q = df.filter q := by
  have hc : (df.filter q).Pairwise (keyLe key) :=
    List.pairwise_of_forall_mem_list (fun a ha b hb =>
      hq a b (List.of_mem_filter ha) (List.of_mem_filter hb))
  have hsub : List.Sublist (df.filter q) (df.insertionSort (keyLe key)) :=
    List.sublist_insertionSort hc (List.filter_sublist df)
  have hsub2 : List.Sublist (df.filter q)
      ((df.insertionSort (keyLe key)).filter q) := by
    have h2 := hsub.filter q
    rwa [List.filter_eq_self.mpr
      (fun a ha => List.of_mem_filter ha)] at h2
  have hpermf : List.Perm ((df.insertionSort (keyLe key)).filter q)
      (df.filter q) :=
    (List.perm_insertionSort _ _).filter q
  exact (hsub2.eq_of_length hpermf.length_eq.symm).symm

/-- Specification of one `groupIndex` row: for every key value occurring
in the input there is an index row whose two sequences have equal
length, that length counts the input events with that key, the submit
sequence is non-decreasing, and the events of any fixed timestamp appear
in their original input order. -/
theorem groupIndex_spec (key val : CEvent → Nat) (df : List CEvent)
    (u : Nat) (hu : u ∈ df.map key) :
    ∃ row ∈ groupIndex key val df,
      row.user = u ∧
      row.counterparts.length = row.submits.length ∧
      row.submits.length = (df.filter (fun e => key e = u)).length ∧
      row.submits.Pairwise (fun a b => a ≤ b) ∧
      ∀ t : Int,
        (row.counterparts.zip row.submits).filter (fun p => p.2 = t) =
          (df.filter (fun e => key e = u ∧ e.submit = t)).map
            (fun e => (val e, e.submit)) := by
  have hperm : List.Perm (df.insertionSort (keyLe key)) df :=
    List.perm_insertionSort _ _
  have hsort : List.Sorted (keyLe key) (df.insertionSort (keyLe key)) :=
    List.sorted_insertionSort _ _
  have hu2 : u ∈ (df.insertionSort (keyLe key)).map key :=
    ((hperm.map key).mem_iff).mpr hu
  obtain ⟨b, hb, hbu⟩ :=
    groupRuns_exists_block key (df.insertionSort (keyLe key)) hsort u hu2
  have hchar := (groupRuns_sorted_spec key _ hsort).1 b hb
  rw [hbu] at hchar
  have hkeys : ∀ e ∈ b.1 :: b.2, key e = u := by
    intro e hemem
    rw [hchar] at hemem
    have := List.of_mem_filter hemem
    simpa using this
  refine ⟨⟨u, (b.1 :: b.2).map val,
    (b.1 :: b.2).map (fun e => e.submit)⟩, ?_, rfl, ?_, ?_, ?_, ?_⟩
  · show _ ∈ groupIndex key val df
    unfold groupIndex
    refine List.mem_map.mpr ⟨b, hb, ?_⟩
    rw [hbu]
  · simp
  · have hlen : (b.1 :: b.2).length =
        (df.filter (fun e => key e = u)).length := by
      rw [hchar]
      exact ((hperm.filter _).length_eq)
    simpa using hlen
  · have hpw : (b.1 :: b.2).Pairwise (keyLe key) := by
      rw [hchar]
      exact List.Pairwise.sublist (List.filter_sublist _) hsort
    show ((b.1 :: b.2).map (fun e => e.submit)).Pairwise (fun a b => a ≤ b)
    rw [List.pairwise_map]
    refine hpw.imp_of_mem ?_
    intro a c hamem hcmem hac
    have h1 := hkeys a hamem
    have h2 := hkeys c hcmem
    unfold keyLe at hac
    rcases hac with h | ⟨_, h⟩
    · omega
    · exact h
  · intro t
    show (((b.1 :: b.2).map val).zip
        ((b.1 :: b.2).map (fun e => e.submit))).filter
        (fun p => p.2 = t) = _
    rw [List.zip_map', List.filter_map]
    have hstab := insertionSort_filter_of_const key df
      (fun e => decide (e.submit = t) && decide (key e = u))
      (fun a c ha hc => by
        simp only [Bool.and_eq_true, decide_eq_true_eq] at ha hc
        unfold keyLe
        omega)
    have hblockfil : (b.1 :: b.2).filter
        ((fun p : Nat × Int => decide (p.2 = t)) ∘
          (fun e => (val e, e.submit))) =
        df.filter (fun e => key e = u ∧ e.submit = t) := by
      have hcomp : ((fun p : Nat × Int => decide (p.2 = t)) ∘
          (fun e : CEvent => (val e, e.submit))) =
          (fun e : CEvent => decide (e.submit = t)) := rfl
      rw [hcomp, hchar, List.filter_filter, hstab]
      refine List.filter_congr fun e _ => ?_
      simp [Bool.and_comm]
    rw [hblockfil]
theorem mem_firstDedup {l : List String} {s : String} :
    s ∈ firstDedup l ↔ s ∈ l := by
  induction l with
  | nil => simp [firstDedup]
  | cons x xs ih =>
    simp only [firstDedup, List.mem_cons, List.mem_filter,
      decide_eq_true_eq]
    by_cases h : s = x
    · simp [h]
    · simp [h, ih]

/-- `firstDedup` has no duplicates. -/
theorem nodup_firstDedup (l : List String) : (firstDedup l).Nodup := by
  induction l with
  | nil => simp [firstDedup]
  | cons x xs ih =>
    rw [firstDedup, List.nodup_cons]
    constructor
    · intro hmem
      have := (List.mem_filter.mp hmem).2
      simp at this
    · exact ih.filter _

/-- The code of a value that occurs in the stacked column is in range. -/
theorem codeOf_lt {l : List String} {s : String} (hs : s ∈ l) :
    codeOf (firstDedup l) s < (firstDedup l).length :=
  List.indexOf_lt_length.mpr (mem_firstDedup.mpr hs)

/-- Looking a code up in the lookup table recovers the factorized
string. -/
theorem getD_codeOf {l : List String} {s : String} (hs : s ∈ l) :
    (firstDedup l).getD (codeOf (firstDedup l) s) "" = s := by
  have hlt := codeOf_lt hs
  rw [List.getD_eq_getElem?_getD, List.getElem?_eq_getElem hlt]
  exact List.getElem_indexOf hlt

/-- Codes are injective on the values that occur in the stacked
column. -/
theorem codeOf_inj {l : List String} {s t : String} (hs : s ∈ l)
    (ht : t ∈ l)
    (h : codeOf (firstDedup l) s = codeOf (firstDedup l) t) : s = t := by
  have h1 := getD_codeOf hs
  have h2 := getD_codeOf ht
  rw [h] at h1
  exact h1.symm.trans h2

/-- Every index of the lookup table is the code of some stacked value. -/
theorem codeOf_surj {l : List String} {k : Nat}
    (hk : k < (firstDedup l).length) :
    ∃ s ∈ l, codeOf (firstDedup l) s = k := by
  refine ⟨(firstDedup l).get ⟨k, hk⟩, ?_, ?_⟩
  · exact mem_firstDedup.mp (List.get_mem _ _ hk)
  · simpa [codeOf] using
      List.indexOf_getElem (nodup_firstDedup l) k hk

/-- The lookup table has one entry per distinct stacked value. -/
theorem firstDedup_length (l : List String) :
    (firstDedup l).length = l.toFinset.card := by
  have hset : (firstDedup l).toFinset = l.toFinset := by
    ext s
    simp [List.mem_toFinset, mem_firstDedup]
  rw [← List.toFinset_card_of_nodup (nodup_firstDedup l), hset]

/-- Splits `clean`'s successful result into its components, given the
string-level events. -/
theorem clean_ok_parts (tstart tend : Int) (f : Cell → String) (d : Char)
    (ss : Bool) (rows : List RawRow) (evs : List SEvent)
    (coded : List CEvent) (key : List String)
    (hs : cleanStrings tstart tend f d ss rows = Except.ok evs)
    (hc : clean tstart tend f d ss rows = Except.ok (coded, key)) :
    key = firstDedup (stackPairs evs) ∧
      coded = ((evs.map (fun e => CEvent.mk (codeOf (firstDedup
        (stackPairs evs)) e.sender) (codeOf (firstDedup (stackPairs evs))
          e.receiver) e.submit)).insertionSort submitLe) := by
  unfold clean at hc
  rw [hs] at hc
  simp only [Except.ok.injEq, Prod.mk.injEq] at hc
  exact ⟨hc.2.symm, hc.1.symm⟩

/-- Each event's sender occurs in the stacked column. -/
theorem sender_mem_stackPairs {evs : List SEvent} {e : SEvent}
    (he : e ∈ evs) : e.sender ∈ stackPairs evs :=
  List.mem_flatMap.mpr ⟨e, he, by simp⟩

/-- Each event's receiver occurs in the stacked column. -/
theorem receiver_mem_stackPairs {evs : List SEvent} {e : SEvent}
    (he : e ∈ evs) : e.receiver ∈ stackPairs evs :=
  List.mem_flatMap.mpr ⟨e, he, by simp⟩

/-- C3: the factorization performed by `clean` is a round trip — looking
each assigned code up in the returned `user_key` recovers the original
cleaned string, the codes are exactly the dense interval
`[0, distinct_count)` with `distinct_count` the number of distinct
sender/receiver strings among surviving events, and every coded output
row decodes to a surviving string-level event. -/
theorem C3_factorize_roundtrip (tstart tend : Int) (f : Cell → String)
    (d : Char) (ss : Bool) (rows : List RawRow) (evs : List SEvent)
    (coded : List CEvent) (key : List String)
    (hs : cleanStrings tstart tend f d ss rows = Except.ok evs)
    (hc : clean tstart tend f d ss rows = Except.ok (coded, key)) :
    (∀ s ∈ stackPairs evs,
      codeOf key s < key.length ∧ key.getD (codeOf key s) "" = s) ∧
    key.length = (stackPairs evs).toFinset.card ∧
    (∀ k, k < key.length → ∃ s ∈ stackPairs evs, codeOf key s = k) ∧
    (∀ c ∈ coded, ∃ e ∈ evs,
      c.sender = codeOf key e.sender ∧ c.receiver = codeOf key e.receiver ∧
      c.submit = e.submit ∧ key.getD c.sender "" = e.sender ∧
      key.getD c.receiver "" = e.receiver) := by
  obtain ⟨hkey, hcoded⟩ :=
    clean_ok_parts tstart tend f d ss rows evs coded key hs hc
  subst hkey
  refine ⟨?_, firstDedup_length _, ?_, ?_⟩
  · intro s hsmem
    exact ⟨codeOf_lt hsmem, getD_codeOf hsmem⟩
  · intro k hk
    exact codeOf_surj hk
  · intro c hcmem
    rw [hcoded] at hcmem
    have := (List.perm_insertionSort submitLe _).mem_iff.mp hcmem
    rcases List.mem_map.mp this with ⟨e, he, rfl⟩
    exact ⟨e, he, rfl, rfl, rfl,
      getD_codeOf (sender_mem_stackPairs he),
      getD_codeOf (receiver_mem_stackPairs he)⟩

/-- Witness for C3: a two-row Seattle-delimiter input where `B` appears
as a receiver and later as a sender; both codes decode to the original
strings. -/
theorem C3_factorize_roundtrip_witness :
    (codeOf ["A", "B"] "A" < (["A", "B"] : List String).length ∧
      (["A", "B"] : List String).getD (codeOf ["A", "B"] "A") "" = "A") ∧
    (["A", "B"] : List String).length =
      (stackPairs [⟨"A", "B", 1483351200⟩,
        ⟨"B", "A", 1483351260⟩]).toFinset.card :=
  ⟨(C3_factorize_roundtrip seattle_start seattle_end clean_seattle
      (Char.ofNat 59) false
      [⟨some "A", some "B", none, none, some "2017-01-02 10:00:00"⟩,
       ⟨some "B", some "A", none, none, some "2017-01-02 10:01:00"⟩]
      [⟨"A", "B", 1483351200⟩, ⟨"B", "A", 1483351260⟩]
      [⟨0, 1, 1483351200⟩, ⟨1, 0, 1483351260⟩] ["A", "B"]
      (by decide) (by decide)).1 "A" (by decide),
   (C3_factorize_roundtrip seattle_start seattle_end clean_seattle
      (Char.ofNat 59) false
      [⟨some "A", some "B", none, none, some "2017-01-02 10:00:00"⟩,
       ⟨some "B", some "A", none, none, some "2017-01-02 10:01:00"⟩]
      [⟨"A", "B", 1483351200⟩, ⟨"B", "A", 1483351260⟩]
      [⟨0, 1, 1483351200⟩, ⟨1, 0, 1483351260⟩] ["A", "B"]
      (by decide) (by decide)).2.1⟩

/-- C9: sender and receiver identities share one code space — `clean`
returns a single lookup table, both coded columns are indices into it,
and two surviving events carry the same code in sender position and
receiver position exactly when the underlying cleaned strings are
equal. -/
theorem C9_shared_code_space (tstart tend : Int) (f : Cell → String)
    (d : Char) (ss : Bool) (rows : List RawRow) (evs : List SEvent)
    (coded : List CEvent) (key : List String)
    (hs : cleanStrings tstart tend f d ss rows = Except.ok evs)
    (hc : clean tstart tend f d ss rows = Except.ok (coded, key)) :
    (∀ e1 ∈ evs, ∀ e2 ∈ evs,
      (codeOf key e1.sender = codeOf key e2.receiver ↔
        e1.sender = e2.receiver)) ∧
    (∀ c ∈ coded, ∃ e ∈ evs,
      c.sender = codeOf key e.sender ∧ c.receiver = codeOf key e.receiver) := by
  obtain ⟨hkey, hcoded⟩ :=
    clean_ok_parts tstart tend f d ss rows evs coded key hs hc
  subst hkey
  constructor
  · intro e1 h1 e2 h2
    constructor
    · intro h
      exact codeOf_inj (sender_mem_stackPairs h1)
        (receiver_mem_stackPairs h2) h
    · intro h
      rw [h]
  · intro c hcmem
    rw [hcoded] at hcmem
    have := (List.perm_insertionSort submitLe _).mem_iff.mp hcmem
    rcases List.mem_map.mp this with ⟨e, he, rfl⟩
    exact ⟨e, he, rfl, rfl⟩

/-- Witness for C9: in the two-row example, `B` as sender of the second
event and `B` as receiver of the first get the same code. -/
theorem C9_shared_code_space_witness :
    codeOf ["A", "B"]
        (SEvent.mk "B" "A" 1483351260).sender =
      codeOf ["A", "B"] (SEvent.mk "A" "B" 1483351200).receiver :=
  ((C9_shared_code_space seattle_start seattle_end clean_seattle
      (Char.ofNat 59) false
      [⟨some "A", some "B", none, none, some "2017-01-02 10:00:00"⟩,
       ⟨some "B", some "A", none, none, some "2017-01-02 10:01:00"⟩]
      [⟨"A", "B", 1483351200⟩, ⟨"B", "A", 1483351260⟩]
      [⟨0, 1, 1483351200⟩, ⟨1, 0, 1483351260⟩] ["A", "B"]
      (by decide) (by decide)).1 ⟨"B", "A", 1483351260⟩ (by decide)
      ⟨"A", "B", 1483351200⟩ (by decide)).mpr (by decide)

/-- C4: for every distinct sender of a coded event table, the `senders`
index has a row whose receivers and submits sequences have equal length,
that length counts the sender's events, the submits are non-decreasing,
and events with equal timestamps keep their original input order
(`np.lexsort` is a stable sort); symmetrically for the `receivers`
index grouped by receiver. -/
theorem C4_per_user_index (df : List CEvent) :
    (∀ u, u ∈ df.map (fun e => e.sender) →
      ∃ row ∈ senders df,
        row.user = u ∧
        row.counterparts.length = row.submits.length ∧
        row.submits.length = (df.filter (fun e => e.sender = u)).length ∧
        row.submits.Pairwise (fun a b => a ≤ b) ∧
        ∀ t : Int,
          (row.counterparts.zip row.submits).filter (fun p => p.2 = t) =
            (df.filter (fun e => e.sender = u ∧ e.submit = t)).map
              (fun e => (e.receiver, e.submit))) ∧
    (∀ u, u ∈ df.map (fun e => e.receiver) →
      ∃ row ∈ receivers df,
        row.user = u ∧
        row.counterparts.length = row.submits.length ∧
        row.submits.length = (df.filter (fun e => e.receiver = u)).length ∧
        row.submits.Pairwise (fun a b => a ≤ b) ∧
        ∀ t : Int,
          (row.counterparts.zip row.submits).filter (fun p => p.2 = t) =
            (df.filter (fun e => e.receiver = u ∧ e.submit = t)).map
              (fun e => (e.sender, e.submit))) := by
  constructor
  · intro u hu
    exact groupIndex_spec (fun e => e.sender) (fun e => e.receiver) df u hu
  · intro u hu
    exact groupIndex_spec (fun e => e.receiver) (fun e => e.sender) df u hu

/-- Witness for C4: the four-event table with sender 1 owning three
events, two of them tied at timestamp 50 and kept in input order
(receiver 2 before receiver 5). -/
theorem C4_per_user_index_witness :
    ∃ row ∈ senders [⟨1, 2, 50⟩, ⟨0, 3, 20⟩, ⟨1, 4, 10⟩, ⟨1, 5, 50⟩],
      row.user = 1 ∧
      row.counterparts.length = row.submits.length ∧
      row.submits.length =
        (([⟨1, 2, 50⟩, ⟨0, 3, 20⟩, ⟨1, 4, 10⟩, ⟨1, 5, 50⟩] :
          List CEvent).filter (fun e => e.sender = 1)).length ∧
      row.submits.Pairwise (fun a b => a ≤ b) ∧
      ∀ t : Int,
        (row.counterparts.zip row.submits).filter (fun p => p.2 = t) =
          (([⟨1, 2, 50⟩, ⟨0, 3, 20⟩, ⟨1, 4, 10⟩, ⟨1, 5, 50⟩] :
            List CEvent).filter
              (fun e => e.sender = 1 ∧ e.submit = t)).map
            (fun e => (e.receiver, e.submit)) :=
  (C4_per_user_index
    [⟨1, 2, 50⟩, ⟨0, 3, 20⟩, ⟨1, 4, 10⟩, ⟨1, 5, 50⟩]).1 1 (by decide)

/-- C7: `active_users` retains exactly the users whose message count
(length of the `submits` column) lies in the inclusive band between the
`min_percentile`-th and `max_percentile`-th linear-interpolation
percentiles of the count distribution; for counts `[1,2,3,4,5,100]` with
percentiles 0 and 80 the band is `[1, 5]`, so the count-100 user is
dropped and the rest are kept.  (`np.percentile` raises on an empty
distribution, hence the nonemptiness hypothesis on the general part.) -/
theorem C7_active_users_band :
    (∀ (df : List UserRow) (minp maxp : ℚ) (r : UserRow), df ≠ [] →
      (r ∈ active_users df minp maxp ↔
        r ∈ df ∧
          percentile (df.map fun u => u.submits.length) minp ≤
            (r.submits.length : ℚ) ∧
          (r.submits.length : ℚ) ≤
            percentile (df.map fun u => u.submits.length) maxp)) ∧
    active_users
        [⟨0, [], [1]⟩, ⟨1, [], [1, 2]⟩, ⟨2, [], [1, 2, 3]⟩,
         ⟨3, [], [1, 2, 3, 4]⟩, ⟨4, [], [1, 2, 3, 4, 5]⟩,
         ⟨5, [], List.replicate 100 7⟩] 0 80 =
      [⟨0, [], [1]⟩, ⟨1, [], [1, 2]⟩, ⟨2, [], [1, 2, 3]⟩,
       ⟨3, [], [1, 2, 3, 4]⟩, ⟨4, [], [1, 2, 3, 4, 5]⟩] := by
  constructor
  · intro df minp maxp r _
    simp [active_users, List.mem_filter, and_assoc]
  · have hmap :
        ([⟨0, [], [1]⟩, ⟨1, [], [1, 2]⟩, ⟨2, [], [1, 2, 3]⟩,
          ⟨3, [], [1, 2, 3, 4]⟩, ⟨4, [], [1, 2, 3, 4, 5]⟩,
          ⟨5, [], List.replicate 100 7⟩] : List UserRow).map
            (fun r => r.submits.length) = [1, 2, 3, 4, 5, 100] := by
      decide
    simp only [active_users, hmap, percentile_0_example,
      percentile_80_example]
    decide

/-- Witness for C7: the band membership test for the count-1 user of the
six-user example. -/
theorem C7_active_users_band_witness :
    (⟨0, [], [1]⟩ : UserRow) ∈
        active_users
          [⟨0, [], [1]⟩, ⟨1, [], [1, 2]⟩, ⟨2, [], [1, 2, 3]⟩,
           ⟨3, [], [1, 2, 3, 4]⟩, ⟨4, [], [1, 2, 3, 4, 5]⟩,
           ⟨5, [], List.replicate 100 7⟩] 0 80 ↔
      (⟨0, [], [1]⟩ : UserRow) ∈
          ([⟨0, [], [1]⟩, ⟨1, [], [1, 2]⟩, ⟨2, [], [1, 2, 3]⟩,
            ⟨3, [], [1, 2, 3, 4]⟩, ⟨4, [], [1, 2, 3, 4, 5]⟩,
            ⟨5, [], List.replicate 100 7⟩] : List UserRow) ∧
        percentile
            (([⟨0, [], [1]⟩, ⟨1, [], [1, 2]⟩, ⟨2, [], [1, 2, 3]⟩,
              ⟨3, [], [1, 2, 3, 4]⟩, ⟨4, [], [1, 2, 3, 4, 5]⟩,
              ⟨5, [], List.replicate 100 7⟩] : List UserRow).map
              fun u => u.submits.length) 0 ≤ ((1 : Nat) : ℚ) ∧
        ((1 : Nat) : ℚ) ≤
          percentile
            (([⟨0, [], [1]⟩, ⟨1, [], [1, 2]⟩, ⟨2, [], [1, 2, 3]⟩,
              ⟨3, [], [1, 2, 3, 4]⟩, ⟨4, [], [1, 2, 3, 4, 5]⟩,
              ⟨5, [], List.replicate 100 7⟩] : List UserRow).map
              fun u => u.submits.length) 80 :=
  C7_active_users_band.1
    [⟨0, [], [1]⟩, ⟨1, [], [1, 2]⟩, ⟨2, [], [1, 2, 3]⟩,
     ⟨3, [], [1, 2, 3, 4]⟩, ⟨4, [], [1, 2, 3, 4, 5]⟩,
     ⟨5, [], List.replicate 100 7⟩] 0 80 ⟨0, [], [1]⟩ (by decide)

end Sparta
